import Mathlib

/-!
Verification development for the pronunciation-analysis engine in
`speech_to_text.py`.

The engine's single algorithmic primitive is Python's
`difflib.SequenceMatcher` (used with `isjunk=None` on short token
sequences), embedded here over arbitrary token types with decidable
equality.  Python floats are modelled as exact rationals; the junk /
popular-element filtering of `SequenceMatcher` (which only activates for
second sequences of length at least 200, far beyond the phrase lists and
short texts handled by the program) is not modelled, and with no junk the
two post-loop extension passes of `find_longest_match` are no-ops, so the
matcher below agrees with the Python one on junk-free inputs.
-/

namespace Speak

/-- Length of the longest common prefix run of two lists (the length of the
matching run starting at the heads). -/
def runLen {α : Type} [DecidableEq α] : List α → List α → Nat
  | x :: xs, y :: ys => if x = y then runLen xs ys + 1 else 0
  | _, _ => 0

/-- Embedding of `SequenceMatcher.find_longest_match(alo, ahi, blo, bhi)`
with no junk: among all maximal common runs of `a[alo:ahi]` and
`b[blo:bhi]`, return the one starting earliest in `a`, then earliest in
`b`, as `(i, j, size)`; `(alo, blo, 0)` if there is none.  The Python
implementation scans end positions in increasing order keeping the first
strict improvement, which selects exactly this block. -/
def find_longest_match {α : Type} [DecidableEq α] (a b : List α)
    (alo ahi blo bhi : Nat) : Nat × Nat × Nat :=
  let cands := (List.range' alo (ahi - alo)).flatMap
    (fun i => (List.range' blo (bhi - blo)).map (fun j => (i, j)))
  cands.foldl
    (fun best c =>
      let k := min (runLen (a.drop c.1) (b.drop c.2)) (min (ahi - c.1) (bhi - c.2))
      if best.2.2 < k then (c.1, c.2, k) else best)
    (alo, blo, 0)

/-- The recursive block collection of `SequenceMatcher.get_matching_blocks`:
find the longest match of the current window, then recurse on the portions
to its left and to its right.  The Python code drives this with an explicit
worklist and sorts the collected triples afterwards; recursing in order
produces that sorted list directly.  `fuel` bounds the recursion depth and
is always given at least the total window size plus one. -/
def matching_blocks_rec {α : Type} [DecidableEq α] (a b : List α) :
    Nat → Nat → Nat → Nat → Nat → List (Nat × Nat × Nat)
  | 0, _, _, _, _ => []
  | fuel + 1, alo, ahi, blo, bhi =>
    let t := find_longest_match a b alo ahi blo bhi
    if t.2.2 = 0 then []
    else
      (if alo < t.1 ∧ blo < t.2.1 then
          matching_blocks_rec a b fuel alo t.1 blo t.2.1
        else [])
        ++ t ::
          (if t.1 + t.2.2 < ahi ∧ t.2.1 + t.2.2 < bhi then
              matching_blocks_rec a b fuel (t.1 + t.2.2) ahi (t.2.1 + t.2.2) bhi
            else [])

/-- The second phase of `get_matching_blocks`: collapse adjacent blocks.
`(i1, j1, k1)` is the pending block (initially `(0, 0, 0)`); a block that
starts exactly where the pending one ends is absorbed into it, otherwise
the pending block is emitted (when non-empty) and the new block becomes
pending. -/
def merge_adjacent : Nat → Nat → Nat → List (Nat × Nat × Nat) → List (Nat × Nat × Nat)
  | i1, j1, k1, [] => if k1 ≠ 0 then [(i1, j1, k1)] else []
  | i1, j1, k1, (i2, j2, k2) :: rest =>
    if i1 + k1 = i2 ∧ j1 + k1 = j2 then
      merge_adjacent i1 j1 (k1 + k2) rest
    else
      (if k1 ≠ 0 then [(i1, j1, k1)] else []) ++ merge_adjacent i2 j2 k2 rest

/-- Embedding of `SequenceMatcher.get_matching_blocks`: the merged block
list followed by the terminating sentinel `(len(a), len(b), 0)`. -/
def get_matching_blocks {α : Type} [DecidableEq α] (a b : List α) :
    List (Nat × Nat × Nat) :=
  merge_adjacent 0 0 0
      (matching_blocks_rec a b (a.length + b.length + 1) 0 a.length 0 b.length)
    ++ [(a.length, b.length, 0)]

/-- The four opcode tags of `SequenceMatcher.get_opcodes`. -/
inductive Tag where
  | equal
  | replace
  | delete
  | insert
deriving DecidableEq, Repr

/-- An alignment opcode `(tag, i1, i2, j1, j2)` relating `a[i1:i2]` to
`b[j1:j2]`. -/
structure Opcode where
  tag : Tag
  i1 : Nat
  i2 : Nat
  j1 : Nat
  j2 : Nat
deriving DecidableEq, Repr

/-- The sweep of `SequenceMatcher.get_opcodes` over the matching blocks:
each gap before a block becomes a `replace` / `delete` / `insert` opcode and
each non-empty block an `equal` opcode. -/
def opcodes_from_blocks : Nat → Nat → List (Nat × Nat × Nat) → List Opcode
  | _, _, [] => []
  | i, j, (ai, bj, size) :: rest =>
    (if i < ai ∧ j < bj then [⟨Tag.replace, i, ai, j, bj⟩]
      else if i < ai then [⟨Tag.delete, i, ai, j, bj⟩]
      else if j < bj then [⟨Tag.insert, i, ai, j, bj⟩]
      else [])
      ++ ((if size ≠ 0 then [⟨Tag.equal, ai, ai + size, bj, bj + size⟩] else [])
        ++ opcodes_from_blocks (ai + size) (bj + size) rest)

/-- Embedding of `SequenceMatcher.get_opcodes`. -/
def get_opcodes {α : Type} [DecidableEq α] (a b : List α) : List Opcode :=
  opcodes_from_blocks 0 0 (get_matching_blocks a b)

/-- Total matched length `M` over all matching blocks (the sentinel block
contributes `0`). -/
def matchedLen {α : Type} [DecidableEq α] (a b : List α) : Nat :=
  ((get_matching_blocks a b).map (fun t => t.2.2)).sum

/-- Embedding of `SequenceMatcher.ratio`: `2*M / (len(a)+len(b))` as an
exact rational; `1` when both sequences are empty (Python's
`_calculate_ratio`).  Stated with `mkRat`, which is definitionally
executable; `ratioQ_eq_div` below restates it with `/`. -/
def ratioQ {α : Type} [DecidableEq α] (a b : List α) : ℚ :=
  if a.length + b.length = 0 then 1
  else mkRat (2 * matchedLen a b) (a.length + b.length)

/-! ### String utilities

Python's `str.lower()` and no-argument `str.split()` (split on whitespace
runs, discarding empty pieces), modelled structurally over the character
list so that everything reduces in the kernel. -/

/-- `str.lower()` (ASCII case folding, which covers every cased character
appearing in the program's tables). -/
def lowerStr (s : String) : String := String.mk (s.data.map Char.toLower)

/-- Worker for `pySplit`: `acc` holds the characters of the word currently
being read, in reverse; a finished non-empty word is flushed at each
whitespace character and at the end. -/
def splitWSAux : List Char → List Char → List String
  | [], acc => if acc = [] then [] else [String.mk acc.reverse]
  | c :: cs, acc =>
    if c.isWhitespace then
      (if acc = [] then [] else [String.mk acc.reverse]) ++ splitWSAux cs []
    else splitWSAux cs (c :: acc)

/-- Python `str.split()` with no separator: whitespace-delimited words,
with no empty words. -/
def pySplit (s : String) : List String := splitWSAux s.data []

/-- Python `" ".join(ws)`. -/
def joinWords : List String → String
  | [] => ""
  | [w] => w
  | w :: ws => w ++ " " ++ joinWords ws

/-- A word that round-trips through `" ".join` / `split()`: non-empty and
whitespace-free.  All tokens handled by the classifier are of this form. -/
def GoodWord (w : String) : Prop :=
  w ≠ "" ∧ ∀ c ∈ w.data, c.isWhitespace = false

/-! ### Data model -/

/-- A mistake record as built by `detect_mistakes`: the Python dict
`{"word": ..., "correct": ..., "position": ..., "type": ...}` with
`type ∈ {"incorrect_word", "extra_word", "pronunciation"}`. -/
structure Mistake where
  word : String
  correct : String
  position : Nat
  type : String
deriving DecidableEq, Repr

/-! ### Static tables (`COMMON_PHRASES`, `LANGUAGE_TIPS`) -/

/-- `COMMON_PHRASES['en']`, also the fallback phrase list. -/
def enPhrases : List String := ["hello", "how are you", "my name is"]

/-- The `COMMON_PHRASES` dict of `get_reference_text`, as an association
list in source order. -/
def COMMON_PHRASES : List (String × List String) :=
  [("fr", ["bonjour", "comment ça va", "je m\x27appelle"]),
   ("de", ["hallo", "wie geht\x27s", "mein name ist"]),
   ("nl", ["hallo", "hoe gaat het", "mijn naam is"]),
   ("ko", ["안녕하세요", "이름이 뭐예요", "감사합니다"]),
   ("en", enPhrases)]

/-- `COMMON_PHRASES.get(lang_code, COMMON_PHRASES['en'])`. -/
def phrasesFor (lang_code : String) : List String :=
  (COMMON_PHRASES.lookup lang_code).getD enPhrases

/-- `LANGUAGE_TIPS['en']`, also the fallback tip list. -/
def enTips : List String := ["Stress syllables...", "Vowel sounds...", "Final consonants..."]

/-- The module-level `LANGUAGE_TIPS` dict, as an association list in source
order. -/
def LANGUAGE_TIPS : List (String × List String) :=
  [("fr", ["Nasal vowels...", "Final consonants...", "French \x27r\x27..."]),
   ("de", ["Consonants clearly...", "Vowel length...", "\x27ch\x27 sounds..."]),
   ("nl", ["Guttural \x27g\x27...", "Vowel length...", "\x27ui\x27 diphthong..."]),
   ("ko", ["Tense consonants...", "Vowel combinations...", "Even syllables..."]),
   ("en", enTips)]

/-- `LANGUAGE_TIPS.get(lang_code, LANGUAGE_TIPS['en'])`. -/
def tipsFor (lang_code : String) : List String :=
  (LANGUAGE_TIPS.lookup lang_code).getD enTips

/-! ### Reference selector (`get_reference_text`) -/

/-- Embedding of `get_reference_text`: the first phrase of the language's
list (fallback: English) whose word-level similarity with the lowercased,
tokenized transcript exceeds `0.7`; the transcript itself if none does. -/
def get_reference_text (recognized_text lang_code : String) : String :=
  let words := pySplit (lowerStr recognized_text)
  match (phrasesFor lang_code).find?
      (fun phrase => decide (ratioQ words (pySplit phrase) > mkRat 7 10)) with
  | some phrase => phrase
  | none => recognized_text

/-! ### Mistake classifier (`detect_mistakes`) -/

/-- The mistakes one opcode of the alignment loop of `detect_mistakes`
contributes.  The `insert` branch is the literal embedding of the source's
dead branch: an `insert` opcode always has `i1 = i2` (proved below), so the
branch emits nothing. -/
def opMistakes (recognized_words reference_words : List String) (op : Opcode) : List Mistake :=
  match op.tag with
  | Tag.replace | Tag.delete =>
    ((List.range' op.i1 (op.i2 - op.i1)).filter (fun i => i < recognized_words.length)).map
      (fun i =>
        { word := recognized_words.getD i ""
          correct := if op.j1 < reference_words.length then reference_words.getD op.j1 "" else ""
          position := i
          type := "incorrect_word" })
  | Tag.insert =>
    (List.range' op.i1 (op.i2 - op.i1)).map
      (fun i =>
        { word := recognized_words.getD i "", correct := "", position := i, type := "extra_word" })
  | Tag.equal => []

/-- The corrected-sequence tokens one opcode contributes:  for each
in-bounds index of a `replace`/`delete` span, the reference word at `j1`
if non-empty, else the `"[silence]"` placeholder; for an `equal` span the
recognized words themselves; nothing for `insert`. -/
def opCorrected (recognized_words reference_words : List String) (op : Opcode) : List String :=
  match op.tag with
  | Tag.replace | Tag.delete =>
    ((List.range' op.i1 (op.i2 - op.i1)).filter (fun i => i < recognized_words.length)).map
      (fun _ =>
        let c := if op.j1 < reference_words.length then reference_words.getD op.j1 "" else ""
        if c ≠ "" then c else "[silence]")
  | Tag.insert => []
  | Tag.equal => (recognized_words.drop op.i1).take (op.i2 - op.i1)

/-- The opcode loop of `detect_mistakes`, accumulating the mistake list and
the corrected word list in opcode order. -/
def processOps (recognized_words reference_words : List String) :
    List Opcode → List Mistake × List String
  | [] => ([], [])
  | op :: rest =>
    let t := processOps recognized_words reference_words rest
    (opMistakes recognized_words reference_words op ++ t.1,
     opCorrected recognized_words reference_words op ++ t.2)

/-- The in-place retyping done by the pronunciation-escalation loop:
`incorrect_word` becomes `pronunciation`, all other fields and types are
untouched. -/
def escalateMistake (m : Mistake) : Mistake :=
  if m.type = "incorrect_word" then { m with type := "pronunciation" } else m

/-- The pre-escalation part of `detect_mistakes`: lowercase and tokenize
both texts, align them, and run the opcode loop. -/
def detectMistakesCore (recognized_text reference_text : String) :
    List Mistake × List String :=
  let recognized_words := pySplit (lowerStr recognized_text)
  let reference_words := pySplit (lowerStr reference_text)
  processOps recognized_words reference_words
    (get_opcodes recognized_words reference_words)

/-- Embedding of `detect_mistakes`.  The phonemizer collaborator is the
parameter `phon`: `phon text lang` is `some phonemes` when
`phonemize(text, language=lang, ...)` returns `phonemes` and `none` when it
raises; the Python `try` block evaluates the recognized text's phonemes
first, so a failure of either call skips escalation. -/
def detect_mistakes (phon : String → String → Option String)
    (recognized_text reference_text lang_code : String) : List Mistake × String :=
  let core := detectMistakesCore recognized_text reference_text
  let mistakes :=
    if lang_code ∈ ["en", "fr", "de", "nl", "ko"] then
      match phon recognized_text lang_code with
      | none => core.1
      | some recognized_phonemes =>
        match phon reference_text lang_code with
        | none => core.1
        | some reference_phonemes =>
          if ratioQ (pySplit recognized_phonemes) (pySplit reference_phonemes)
              < mkRat 85 100 then
            core.1.map escalateMistake
          else core.1
    else core.1
  (mistakes, joinWords core.2)

/-! ### Feedback generator (`generate_feedback`) -/

/-- Embedding of `generate_feedback`. -/
def generate_feedback (mistakes : List Mistake) (lang_code : String) : List String :=
  if mistakes = [] then
    "Excellent pronunciation! No mistakes detected." :: (tipsFor lang_code).take 2
  else
    let pronunciation_errors := mistakes.filter (fun m => m.type = "pronunciation")
    let word_errors := mistakes.filter (fun m => m.type = "incorrect_word")
    let extra_words := mistakes.filter (fun m => m.type = "extra_word")
    (if pronunciation_errors ≠ [] then
        ("Pronunciation issues (" ++ toString pronunciation_errors.length ++ "):")
          :: (pronunciation_errors.take 3).map (fun err =>
            "• \x27" ++ err.word ++ "\x27 sounded like " ++ err.word
              ++ " instead of " ++ err.correct)
      else [])
    ++ (if word_errors ≠ [] then
        ("Incorrect words (" ++ toString word_errors.length ++ "):")
          :: (word_errors.take 3).map (fun err =>
            if err.correct ≠ "" then
              "• Used \x27" ++ err.word ++ "\x27 instead of \x27" ++ err.correct ++ "\x27"
            else
              "• Unrecognized word: \x27" ++ err.word ++ "\x27")
      else [])
    ++ (if extra_words ≠ [] then
        ["Extra words detected (" ++ toString extra_words.length ++ ")"]
      else [])
    ++ ("\nTips for improvement:" :: tipsFor lang_code)

/-! ### Scorer (`calculate_score`) -/

/-- Embedding of `calculate_score`: `0` for an empty reference, otherwise
the character-level similarity of the lowercased texts times `100`, minus
the mistake penalty capped at `40`, clamped to `[0, 100]`. -/
def calculate_score (recognized_text reference_text : String)
    (mistakes : List Mistake) : ℚ :=
  if reference_text = "" then 0
  else
    let similarity := ratioQ (lowerStr recognized_text).data (lowerStr reference_text).data
    let base_score := similarity * 100
    let penalty : Nat := (mistakes.map (fun m =>
      if m.type = "pronunciation" then 3
      else if m.type = "incorrect_word" then 2
      else 1)).sum
    max 0 (min 100 (base_score - min (penalty : ℚ) 40))

/-- Modelled from the spec: the score formula the spec states for all
inputs, `clamp(base - min(penalty, 40), 0, 100)` with
`base = 100 * ratio(chars(lower(recognized)), chars(lower(reference)))`,
with no empty-reference guard.  Written for comparison with
`calculate_score`, which guards `reference_text = ""` first. -/
def scoreSpecFormula (recognized_text reference_text : String)
    (mistakes : List Mistake) : ℚ :=
  let similarity := ratioQ (lowerStr recognized_text).data (lowerStr reference_text).data
  let base_score := similarity * 100
  let penalty : Nat := (mistakes.map (fun m =>
    if m.type = "pronunciation" then 3
    else if m.type = "incorrect_word" then 2
    else 1)).sum
  max 0 (min 100 (base_score - min (penalty : ℚ) 40))

/-! ### Analysis orchestrator (`analyze_pronunciation`)

Only the part of `analyze_pronunciation` downstream of speech recognition
is algorithmic; the audio/model/ASR collaborators appear as parameters
(`recognized_text` and the audio diagnostics).  Results are modelled as
ordered key/value dictionaries so that statements about JSON field names
are expressible. -/

/-- A JSON-serializable Python value. -/
inductive PyVal where
  | str (s : String)
  | nat (n : Nat)
  | rat (q : ℚ)
  | list (xs : List PyVal)
  | dict (fields : List (String × PyVal))

/-- The dict encoding of a `Mistake`. -/
def mistakeVal (m : Mistake) : PyVal :=
  PyVal.dict [("word", PyVal.str m.word), ("correct", PyVal.str m.correct),
    ("position", PyVal.nat m.position), ("type", PyVal.str m.type)]

/-- `DEBUG` flag of the module (set to `True` in the source). -/
def DEBUG : Bool := true

/-- Embedding of `analyze_pronunciation` from the point where the
transcript is known: the "no speech detected" dict for an empty
transcript, otherwise the success dict built from the four engine stages.
`duration_ms`, `sample_rate` and `channels` are the audio diagnostics the
source reads off the processed audio. -/
def analyze_pronunciation (phon : String → String → Option String)
    (recognized_text language : String)
    (duration_ms sample_rate channels : Nat) : List (String × PyVal) :=
  if recognized_text = "" then
    [("error", PyVal.str "No speech detected"),
     ("debug", PyVal.dict
       [("duration_ms", PyVal.nat duration_ms),
        ("sample_rate", PyVal.nat sample_rate),
        ("channels", PyVal.nat channels)])]
  else
    let reference_text := get_reference_text recognized_text language
    let md := detect_mistakes phon recognized_text reference_text language
    let feedback := generate_feedback md.1 language
    let score := calculate_score recognized_text reference_text md.1
    [("original_text", PyVal.str recognized_text),
     ("reference_text", PyVal.str reference_text),
     ("corrected_text", PyVal.str md.2),
     ("mistakes", PyVal.list (md.1.map mistakeVal)),
     ("feedback", PyVal.list (feedback.map PyVal.str)),
     ("score", PyVal.rat score),
     ("language", PyVal.str language)]

/-- The `error_info` dict built by the `except` clause of
`analyze_pronunciation` for a collaborator failure: `error`, `message`,
`type` and `timestamp`, plus `traceback` when `DEBUG` is set. -/
def error_result (message typeName timestamp traceback : String) :
    List (String × PyVal) :=
  [("error", PyVal.str "Analysis failed"),
   ("message", PyVal.str message),
   ("type", PyVal.str typeName),
   ("timestamp", PyVal.str timestamp)]
  ++ (if DEBUG then [("traceback", PyVal.str traceback)] else [])

/-! ### Invariant predicates -/

/-- `Chained p q ahi bhi blocks`: the matching blocks are ordered and
non-overlapping, starting no earlier than `(p, q)` and ending no later
than `(ahi, bhi)`, on both sides simultaneously. -/
def Chained : Nat → Nat → Nat → Nat → List (Nat × Nat × Nat) → Prop
  | p, q, ahi, bhi, [] => p ≤ ahi ∧ q ≤ bhi
  | p, q, ahi, bhi, t :: rest =>
    p ≤ t.1 ∧ q ≤ t.2.1 ∧ Chained (t.1 + t.2.2) (t.2.1 + t.2.2) ahi bhi rest

/-- How one opcode advances the running position `(p, q)`, by tag:
`replace` and `equal` advance both sides (`equal` by equal amounts),
`delete` only the first side, `insert` only the second. -/
def opAdvance (p q : Nat) (op : Opcode) : Prop :=
  match op.tag with
  | Tag.replace => p < op.i2 ∧ q < op.j2
  | Tag.delete => p < op.i2 ∧ op.j2 = q
  | Tag.insert => op.i2 = p ∧ q < op.j2
  | Tag.equal => p < op.i2 ∧ q < op.j2 ∧ op.i2 - p = op.j2 - q

/-- `OpChain p q la lb ops`: the opcode spans are consecutive on both
sides — each opcode starts exactly at the running position `(p, q)` and
advances it to `(i2, j2)`, and the list ends exactly at `(la, lb)`.
Together these say the opcode spans partition `[0, la)` and `[0, lb)`
with no gaps and no overlaps when started from `(0, 0)`. -/
def OpChain : Nat → Nat → Nat → Nat → List Opcode → Prop
  | p, q, la, lb, [] => p = la ∧ q = lb
  | p, q, la, lb, op :: rest =>
    op.i1 = p ∧ op.j1 = q ∧ opAdvance p q op ∧ OpChain op.i2 op.j2 la lb rest

/-! ## Theorems -/

theorem ratioQ_eq_div {α : Type} [DecidableEq α] (a b : List α) :
    ratioQ a b =
      if a.length + b.length = 0 then 1
      else (2 * matchedLen a b : ℚ) / (a.length + b.length : ℚ) := by
  rw [ratioQ]
  split
  · rfl
  · rw [Rat.mkRat_eq_div]
    push_cast
    ring_nf

/-- Fold invariant: a predicate preserved by every step of a `foldl` holds
of its result. -/
theorem foldl_invariant {β σ : Type _} (P : σ → Prop) (f : σ → β → σ) :
    ∀ (l : List β) (s : σ), P s → (∀ t x, x ∈ l → P t → P (f t x)) → P (l.foldl f s)
  | [], _, hs, _ => hs
  | x :: xs, s, hs, hf =>
    foldl_invariant P f xs (f s x) (hf s x (List.mem_cons_self x xs)
      hs) (fun t y hy ht => hf t y (List.mem_cons_of_mem x hy) ht)

/-- The block returned by `find_longest_match` lies inside the window. -/
theorem find_longest_match_bounds {α : Type} [DecidableEq α] (a b : List α)
    (alo ahi blo bhi : Nat) (ha : alo ≤ ahi) (hb : blo ≤ bhi) :
    (fun t : Nat × Nat × Nat =>
        alo ≤ t.1 ∧ t.1 + t.2.2 ≤ ahi ∧ blo ≤ t.2.1 ∧ t.2.1 + t.2.2 ≤ bhi)
      (find_longest_match a b alo ahi blo bhi) := by
  rw [find_longest_match]
  refine foldl_invariant
    (fun t : Nat × Nat × Nat =>
      alo ≤ t.1 ∧ t.1 + t.2.2 ≤ ahi ∧ blo ≤ t.2.1 ∧ t.2.1 + t.2.2 ≤ bhi)
    _ _ _ ?_ ?_
  · exact ⟨Nat.le_refl _, show alo + 0 ≤ ahi by omega, Nat.le_refl _,
      show blo + 0 ≤ bhi by omega⟩
  · rintro ⟨t1, t2, t3⟩ c hc ht
    simp only [List.mem_flatMap, List.mem_map] at hc
    obtain ⟨i, hi, j, hj, rfl⟩ := hc
    rw [List.mem_range'_1] at hi
    rw [List.mem_range'_1] at hj
    dsimp only at ht ⊢
    have h1 : min (runLen (a.drop i) (b.drop j)) (min (ahi - i) (bhi - j)) ≤ ahi - i :=
      Nat.le_trans (Nat.min_le_right _ _) (Nat.min_le_left _ _)
    have h2 : min (runLen (a.drop i) (b.drop j)) (min (ahi - i) (bhi - j)) ≤ bhi - j :=
      Nat.le_trans (Nat.min_le_right _ _) (Nat.min_le_right _ _)
    split
    · dsimp only
      exact ⟨hi.1, by omega, hj.1, by omega⟩
    · exact ht

/-- The final position of a chained block list stays inside the window. -/
theorem chained_le : ∀ {L : List (Nat × Nat × Nat)} {p q ahi bhi : Nat},
    Chained p q ahi bhi L → p ≤ ahi ∧ q ≤ bhi
  | [], _, _, _, _, h => h
  | t :: rest, p, q, ahi, bhi, h => by
    obtain ⟨h1, h2, h3⟩ := h
    have := chained_le h3
    omega

/-- A chain may be restarted from an earlier position. -/
theorem chained_weaken {L : List (Nat × Nat × Nat)} {p q p' q' ahi bhi : Nat}
    (hp : p' ≤ p) (hq : q' ≤ q) (h : Chained p q ahi bhi L) :
    Chained p' q' ahi bhi L := by
  cases L with
  | nil => exact ⟨Nat.le_trans hp h.1, Nat.le_trans hq h.2⟩
  | cons t rest => exact ⟨Nat.le_trans hp h.1, Nat.le_trans hq h.2.1, h.2.2⟩

/-- Chains over adjacent windows concatenate. -/
theorem chained_append : ∀ {L R : List (Nat × Nat × Nat)} {p q m1 m2 ahi bhi : Nat},
    Chained p q m1 m2 L → Chained m1 m2 ahi bhi R → Chained p q ahi bhi (L ++ R)
  | [], _, _, _, _, _, _, _, hL, hR => chained_weaken hL.1 hL.2 hR
  | t :: rest, _, _, _, _, _, _, _, hL, hR =>
    ⟨hL.1, hL.2.1, chained_append hL.2.2 hR⟩

/-- The recursive block collection produces a chained list inside its
window. -/
theorem matching_blocks_rec_chained {α : Type} [DecidableEq α] (a b : List α) :
    ∀ (fuel alo ahi blo bhi : Nat), alo ≤ ahi → blo ≤ bhi →
      Chained alo blo ahi bhi (matching_blocks_rec a b fuel alo ahi blo bhi)
  | 0, alo, ahi, blo, bhi, ha, hb => ⟨ha, hb⟩
  | fuel + 1, alo, ahi, blo, bhi, ha, hb => by
    rw [matching_blocks_rec]
    obtain ⟨h1, h2, h3, h4⟩ := find_longest_match_bounds a b alo ahi blo bhi ha hb
    by_cases hk : (find_longest_match a b alo ahi blo bhi).2.2 = 0
    · rw [if_pos hk]
      exact ⟨ha, hb⟩
    · rw [if_neg hk]
      refine @chained_append _ _ alo blo (find_longest_match a b alo ahi blo bhi).1
        (find_longest_match a b alo ahi blo bhi).2.1 ahi bhi ?_ ?_
      · split
        · exact matching_blocks_rec_chained a b fuel _ _ _ _ h1 h3
        · exact ⟨h1, h3⟩
      · refine ⟨Nat.le_refl _, Nat.le_refl _, ?_⟩
        split
        · exact matching_blocks_rec_chained a b fuel _ _ _ _ (by omega) (by omega)
        · exact ⟨h2, h4⟩

/-- Merging adjacent blocks preserves chainedness: if the pending block
`(i1, j1, k1)` starts no earlier than `(p, q)` and the remaining blocks
chain on from its end, the merged output chains from `(p, q)`. -/
theorem merge_adjacent_chained :
    ∀ {L : List (Nat × Nat × Nat)} {i1 j1 k1 p q ahi bhi : Nat},
      p ≤ i1 → q ≤ j1 → Chained (i1 + k1) (j1 + k1) ahi bhi L →
      Chained p q ahi bhi (merge_adjacent i1 j1 k1 L)
  | [], i1, j1, k1, p, q, ahi, bhi, hp, hq, hL => by
    obtain ⟨hA, hB⟩ := chained_le hL
    rw [merge_adjacent]
    split
    · exact ⟨hp, hq, hL⟩
    · exact ⟨by omega, by omega⟩
  | t :: rest, i1, j1, k1, p, q, ahi, bhi, hp, hq, hL => by
    obtain ⟨i2, j2, k2⟩ := t
    obtain ⟨hi, hj, hrest⟩ := hL
    rw [merge_adjacent]
    split
    · rename_i hmerge
      refine merge_adjacent_chained hp hq ?_
      have e1 : i1 + (k1 + k2) = i2 + k2 := by omega
      have e2 : j1 + (k1 + k2) = j2 + k2 := by omega
      rw [e1, e2]
      exact hrest
    · have hinner : Chained (i1 + k1) (j1 + k1) ahi bhi (merge_adjacent i2 j2 k2 rest) :=
        merge_adjacent_chained hi hj hrest
      split
      · exact ⟨hp, hq, hinner⟩
      · rename_i hk1
        have hk1' : k1 = 0 := by omega
        simp only [List.nil_append]
        exact chained_weaken (by omega) (by omega) hinner

/-- The merged matching blocks (without the sentinel) chain from `(0, 0)`
inside `[0, len a] × [0, len b]`. -/
theorem merged_blocks_chained {α : Type} [DecidableEq α] (a b : List α) :
    Chained 0 0 a.length b.length
      (merge_adjacent 0 0 0
        (matching_blocks_rec a b (a.length + b.length + 1) 0 a.length 0 b.length)) := by
  apply merge_adjacent_chained (Nat.le_refl 0) (Nat.le_refl 0)
  exact matching_blocks_rec_chained a b _ 0 a.length 0 b.length (Nat.zero_le _) (Nat.zero_le _)

/-- A gap opcode (as emitted by `opcodes_from_blocks`) extends a chain
from `(p, q)` to `(i, j)`. -/
theorem opChain_gap {p q i j la lb : Nat} {rest : List Opcode}
    (hpi : p ≤ i) (hqj : q ≤ j) (h : OpChain i j la lb rest) :
    OpChain p q la lb
      ((if p < i ∧ q < j then [⟨Tag.replace, p, i, q, j⟩]
        else if p < i then [⟨Tag.delete, p, i, q, j⟩]
        else if q < j then [⟨Tag.insert, p, i, q, j⟩]
        else []) ++ rest) := by
  by_cases h1 : p < i ∧ q < j
  · rw [if_pos h1, List.singleton_append]
    exact ⟨rfl, rfl, h1, h⟩
  · rw [if_neg h1]
    by_cases h2 : p < i
    · have hq' : q = j := by omega
      rw [if_pos h2, List.singleton_append]
      subst hq'
      exact ⟨rfl, rfl, ⟨h2, rfl⟩, h⟩
    · by_cases h3 : q < j
      · have hp' : p = i := by omega
        rw [if_neg h2, if_pos h3, List.singleton_append]
        subst hp'
        exact ⟨rfl, rfl, ⟨rfl, h3⟩, h⟩
      · have hp' : p = i := by omega
        have hq' : q = j := by omega
        rw [if_neg h2, if_neg h3, List.nil_append]
        subst hp'
        subst hq'
        exact h

/-- A (possibly empty) `equal` opcode extends a chain from `(i, j)` to
`(i + k, j + k)`. -/
theorem opChain_equalOp {i j k la lb : Nat} {rest : List Opcode}
    (h : OpChain (i + k) (j + k) la lb rest) :
    OpChain i j la lb
      ((if k ≠ 0 then [⟨Tag.equal, i, i + k, j, j + k⟩] else []) ++ rest) := by
  by_cases hk : k ≠ 0
  · rw [if_pos hk, List.singleton_append]
    refine ⟨rfl, rfl, ?_, h⟩
    show i < i + k ∧ j < j + k ∧ (i + k) - i = (j + k) - j
    omega
  · rw [if_neg hk, List.nil_append]
    have hk0 : k = 0 := by omega
    subst hk0
    simpa using h

/-- Sweeping a chained block list terminated by the sentinel `(la, lb, 0)`
yields a well-chained opcode list. -/
theorem opChain_opcodes_from_blocks :
    ∀ {L : List (Nat × Nat × Nat)} {p q la lb : Nat},
      Chained p q la lb L →
      OpChain p q la lb (opcodes_from_blocks p q (L ++ [(la, lb, 0)]))
  | [], p, q, la, lb, hL => by
    obtain ⟨hp, hq⟩ := hL
    rw [List.nil_append, opcodes_from_blocks]
    refine opChain_gap hp hq (opChain_equalOp ?_)
    rw [opcodes_from_blocks]
    exact ⟨Nat.add_zero la, Nat.add_zero lb⟩
  | t :: L', p, q, la, lb, hL => by
    obtain ⟨i, j, k⟩ := t
    obtain ⟨hpi, hqj, hrest⟩ := hL
    rw [List.cons_append, opcodes_from_blocks]
    exact opChain_gap hpi hqj
      (opChain_equalOp (opChain_opcodes_from_blocks hrest))

/-- Main structural invariant: the opcodes of `get_opcodes` chain from
`(0, 0)` to `(len a, len b)`, partitioning both index ranges. -/
theorem get_opcodes_opChain {α : Type} [DecidableEq α] (a b : List α) :
    OpChain 0 0 a.length b.length (get_opcodes a b) :=
  opChain_opcodes_from_blocks (merged_blocks_chained a b)

/-- An advancing opcode moves the cursor weakly forward on both sides and
strictly forward on at least one. -/
theorem opAdvance_le {p q : Nat} {op : Opcode} (h : opAdvance p q op) :
    p ≤ op.i2 ∧ q ≤ op.j2 ∧ (p < op.i2 ∨ q < op.j2) := by
  obtain ⟨tag, i1, i2, j1, j2⟩ := op
  cases tag <;> dsimp only [opAdvance] at h ⊢ <;> omega

/-- The final position of an opcode chain bounds its start. -/
theorem opChain_pos_le : ∀ {ops : List Opcode} {p q la lb : Nat},
    OpChain p q la lb ops → p ≤ la ∧ q ≤ lb
  | [], _, _, _, _, h => ⟨Nat.le_of_eq h.1, Nat.le_of_eq h.2⟩
  | op :: rest, p, q, la, lb, h => by
    obtain ⟨h1, h2, hadv, hrest⟩ := h
    obtain ⟨hle1, hle2, _⟩ := opAdvance_le hadv
    have htail := opChain_pos_le hrest
    omega

/-- Every opcode of a chain starts no earlier than the chain's start. -/
theorem opChain_start_le : ∀ {ops : List Opcode} {p q la lb : Nat},
    OpChain p q la lb ops → ∀ op ∈ ops, p ≤ op.i1 ∧ q ≤ op.j1
  | [], _, _, _, _, _, op, hop => absurd hop (List.not_mem_nil op)
  | o :: rest, p, q, la, lb, h, op, hop => by
    obtain ⟨h1, h2, hadv, hrest⟩ := h
    obtain ⟨hle1, hle2, _⟩ := opAdvance_le hadv
    rcases List.mem_cons.mp hop with rfl | hmem
    · omega
    · have hmono := opChain_start_le hrest op hmem
      omega

/-- Chained opcodes are pairwise nondecreasing in `i1` and in `j1`. -/
theorem opChain_pairwise : ∀ {ops : List Opcode} {p q la lb : Nat},
    OpChain p q la lb ops →
    List.Pairwise (fun x y => x.i1 ≤ y.i1 ∧ x.j1 ≤ y.j1) ops
  | [], _, _, _, _, _ => List.Pairwise.nil
  | o :: rest, p, q, la, lb, h => by
    obtain ⟨h1, h2, hadv, hrest⟩ := h
    obtain ⟨hle1, hle2, _⟩ := opAdvance_le hadv
    refine List.Pairwise.cons ?_ (opChain_pairwise hrest)
    intro y hy
    have hmono := opChain_start_le hrest y hy
    omega

theorem runLen_self {α : Type} [DecidableEq α] : ∀ (l : List α), runLen l l = l.length
  | [] => rfl
  | x :: xs => by rw [runLen, if_pos rfl, runLen_self xs, List.length_cons]

/-- On a pair of identical non-empty sequences the longest match is the
whole sequence, found at the very first candidate position. -/
theorem find_longest_match_self {α : Type} [DecidableEq α] (a : List α) (h : 0 < a.length) :
    find_longest_match a a 0 a.length 0 a.length = (0, 0, a.length) := by
  obtain ⟨m, hm⟩ : ∃ m, a.length = m + 1 := ⟨a.length - 1, by omega⟩
  rw [find_longest_match]
  simp only [Nat.sub_zero]
  rw [hm, List.range'_succ, List.flatMap_cons, List.map_cons, List.cons_append,
    List.foldl_cons]
  refine foldl_invariant (fun s : Nat × Nat × Nat => s = (0, 0, m + 1)) _ _ _ ?_ ?_
  · dsimp only
    rw [List.drop_zero, runLen_self, hm]
    simp only [Nat.sub_zero, Nat.min_self]
    rw [if_pos (by omega)]
  intro t c hc ht
  subst ht
  have hc' : 1 ≤ c.1 ∨ 1 ≤ c.2 := by
    rcases List.mem_append.mp hc with hc1 | hc2
    · simp only [List.mem_map] at hc1
      obtain ⟨j, hj, rfl⟩ := hc1
      rw [List.mem_range'_1] at hj
      right
      exact hj.1
    · simp only [List.mem_flatMap, List.mem_map] at hc2
      obtain ⟨i, hi, j, hj, rfl⟩ := hc2
      rw [List.mem_range'_1] at hi
      left
      exact hi.1
  dsimp only
  rw [if_neg]
  have h1 : min (runLen (a.drop c.1) (a.drop c.2)) (min (m + 1 - c.1) (m + 1 - c.2))
      ≤ min (m + 1 - c.1) (m + 1 - c.2) := Nat.min_le_right _ _
  omega

/-- On identical non-empty sequences the matching blocks are the whole
sequence plus the sentinel. -/
theorem get_matching_blocks_self {α : Type} [DecidableEq α] (a : List α) (h : 0 < a.length) :
    get_matching_blocks a a = [(0, 0, a.length), (a.length, a.length, 0)] := by
  rw [get_matching_blocks, matching_blocks_rec, find_longest_match_self a h]
  dsimp only
  rw [if_neg (by omega), if_neg (by omega), if_neg (by omega)]
  rw [List.nil_append, merge_adjacent]
  rw [if_pos (by omega), merge_adjacent, if_pos (by omega)]
  simp

theorem matchedLen_self {α : Type} [DecidableEq α] (a : List α) (h : 0 < a.length) :
    matchedLen a a = a.length := by
  rw [matchedLen, get_matching_blocks_self a h]
  simp

/-- `ratio(a, a) = 1` for non-empty `a`. -/
theorem ratioQ_self {α : Type} [DecidableEq α] (a : List α) (h : a ≠ []) :
    ratioQ a a = 1 := by
  have hl : 0 < a.length := List.length_pos.mpr h
  rw [ratioQ, if_neg (by omega), matchedLen_self a hl, Rat.mkRat_eq_div]
  have hne : ((a.length : ℤ) : ℚ) ≠ 0 := by
    norm_cast
    omega
  push_cast
  field_simp
  ring

/-- `find_longest_match` on an empty second-side window finds nothing. -/
theorem find_longest_match_empty_b {α : Type} [DecidableEq α] (a b : List α)
    (alo ahi blo : Nat) :
    find_longest_match a b alo ahi blo blo = (alo, blo, 0) := by
  rw [find_longest_match, Nat.sub_self]
  have he : ∀ L : List Nat,
      (L.flatMap fun i => (List.range' blo 0).map fun j => (i, j)) = [] := by
    intro L
    simp
  rw [he]
  rfl

/-- `ratio(a, empty) = 0` for non-empty `a`. -/
theorem ratioQ_nil_right {α : Type} [DecidableEq α] (a : List α) (h : a ≠ []) :
    ratioQ a [] = 0 := by
  have hl : 0 < a.length := List.length_pos.mpr h
  have hblocks : get_matching_blocks a ([] : List α) = [(a.length, 0, 0)] := by
    rw [get_matching_blocks]
    simp only [List.length_nil, Nat.add_zero]
    rw [matching_blocks_rec, find_longest_match_empty_b]
    dsimp only
    rw [if_pos rfl, merge_adjacent, if_neg (by omega)]
    simp
  rw [ratioQ, matchedLen, hblocks]
  simp only [List.map_cons, List.map_nil, List.sum_cons, List.sum_nil, List.length_nil]
  rw [if_neg (by omega), Rat.mkRat_eq_div]
  simp

/-- `ratio(empty, empty) = 1`. -/
theorem ratioQ_nil_nil {α : Type} [DecidableEq α] : ratioQ ([] : List α) [] = 1 := by
  rw [ratioQ]
  simp

/-- On identical non-empty word lists the only opcode is one `equal` span
covering everything. -/
theorem get_opcodes_self {α : Type} [DecidableEq α] (a : List α) (h : 0 < a.length) :
    get_opcodes a a = [⟨Tag.equal, 0, a.length, 0, a.length⟩] := by
  rw [get_opcodes, get_matching_blocks_self a h]
  simp only [opcodes_from_blocks]
  rw [if_neg (by omega), if_neg (by omega), if_neg (by omega), if_pos h.ne',
    if_neg (by omega), if_neg (by omega), if_neg (by omega), if_neg (by omega)]
  simp

/-- On identical empty word lists there are no opcodes at all. -/
theorem get_opcodes_nil {α : Type} [DecidableEq α] :
    get_opcodes ([] : List α) [] = [] := rfl

/-- Sweeping a chained opcode list starting at `p` contributes exactly
`len(recognized_words) - p` corrected tokens: every recognized word is
accounted for exactly once. -/
theorem processOps_corrected_length (rws fws : List String) :
    ∀ {ops : List Opcode} {p q : Nat},
      OpChain p q rws.length fws.length ops →
      (processOps rws fws ops).2.length = rws.length - p
  | [], p, q, h => by
    obtain ⟨h1, h2⟩ := h
    subst h1
    simp [processOps]
  | op :: rest, p, q, h => by
    obtain ⟨h1, h2, hadv, hrest⟩ := h
    obtain ⟨hle1, hle2, _⟩ := opAdvance_le hadv
    have hi2la := (opChain_pos_le hrest).1
    have ih := processOps_corrected_length rws fws hrest
    rw [processOps]
    dsimp only
    rw [List.length_append, ih]
    have hop : (opCorrected rws fws op).length = op.i2 - p := by
      obtain ⟨tag, i1, i2, j1, j2⟩ := op
      dsimp only at h1 h2 hle1 hle2 hi2la ⊢
      subst h1
      subst h2
      cases tag
      case equal =>
        dsimp only [opCorrected]
        rw [List.length_take, List.length_drop]
        omega
      case insert =>
        dsimp only [opAdvance] at hadv
        dsimp only [opCorrected, List.length_nil]
        omega
      case replace =>
        dsimp only [opCorrected]
        rw [List.length_map,
          List.filter_eq_self.mpr (fun x hx => by
            rw [List.mem_range'_1] at hx
            simp only [decide_eq_true_eq]
            omega),
          List.length_range']
      case delete =>
        dsimp only [opCorrected]
        rw [List.length_map,
          List.filter_eq_self.mpr (fun x hx => by
            rw [List.mem_range'_1] at hx
            simp only [decide_eq_true_eq]
            omega),
          List.length_range']
    omega

/-- Every mistake emitted by the opcode loop (before escalation) is typed
`incorrect_word`: `equal` spans emit none, and `insert` spans are empty on
the recognized side, so the `extra_word` branch never fires. -/
theorem processOps_mistake_types (rws fws : List String) :
    ∀ {ops : List Opcode} {p q : Nat},
      OpChain p q rws.length fws.length ops →
      ∀ m ∈ (processOps rws fws ops).1, m.type = "incorrect_word"
  | [], _, _, _, m, hm => by simp [processOps] at hm
  | op :: rest, p, q, h, m, hm => by
    obtain ⟨h1, h2, hadv, hrest⟩ := h
    rw [processOps] at hm
    dsimp only at hm
    rcases List.mem_append.mp hm with hm1 | hm2
    · obtain ⟨tag, i1, i2, j1, j2⟩ := op
      dsimp only at h1 h2 hadv
      cases tag
      case replace =>
        dsimp only [opMistakes] at hm1
        obtain ⟨i, _, rfl⟩ := List.mem_map.mp hm1
        rfl
      case delete =>
        dsimp only [opMistakes] at hm1
        obtain ⟨i, _, rfl⟩ := List.mem_map.mp hm1
        rfl
      case insert =>
        dsimp only [opAdvance] at hadv
        dsimp only [opMistakes] at hm1
        have hz : i2 - i1 = 0 := by omega
        rw [hz] at hm1
        simp at hm1
      case equal =>
        dsimp only [opMistakes] at hm1
        simp at hm1
    · exact processOps_mistake_types rws fws hrest m hm2

/-- A flushed accumulator of non-whitespace characters is a good word. -/
theorem goodWord_mk_reverse (acc : List Char) (hne : acc ≠ [])
    (hacc : ∀ c ∈ acc, c.isWhitespace = false) :
    GoodWord (String.mk acc.reverse) := by
  constructor
  · intro hcon
    apply hne
    have hdata : acc.reverse = ([] : List Char) := congrArg String.data hcon
    simpa using hdata
  · intro c hc
    exact hacc c (List.mem_reverse.mp hc)

/-- Every word produced by the splitter is non-empty and
whitespace-free. -/
theorem splitWSAux_words : ∀ (cs acc : List Char),
    (∀ c ∈ acc, c.isWhitespace = false) →
    ∀ w ∈ splitWSAux cs acc, GoodWord w
  | [], acc, hacc, w, hw => by
    rw [splitWSAux] at hw
    split at hw
    · simp at hw
    · rename_i hne
      simp only [List.mem_singleton] at hw
      subst hw
      exact goodWord_mk_reverse acc hne hacc
  | ch :: cs, acc, hacc, w, hw => by
    rw [splitWSAux] at hw
    split at hw
    · rcases List.mem_append.mp hw with h1 | h2
      · split at h1
        · simp at h1
        · rename_i hne
          simp only [List.mem_singleton] at h1
          subst h1
          exact goodWord_mk_reverse acc hne hacc
      · exact splitWSAux_words cs [] (by simp) w h2
    · rename_i hws
      refine splitWSAux_words cs (ch :: acc) ?_ w hw
      intro c hc
      rcases List.mem_cons.mp hc with rfl | hmem
      · simpa using hws
      · exact hacc c hmem

/-- Every word of `pySplit s` is a good word. -/
theorem pySplit_goodWords (s : String) : ∀ w ∈ pySplit s, GoodWord w :=
  splitWSAux_words s.data [] (by simp)

/-- Splitting past a whitespace-free chunk just accumulates it. -/
theorem splitWSAux_append_word : ∀ (w cs acc : List Char),
    (∀ c ∈ w, c.isWhitespace = false) →
    splitWSAux (w ++ cs) acc = splitWSAux cs (w.reverse ++ acc)
  | [], cs, acc, _ => by simp
  | ch :: w', cs, acc, hw => by
    rw [List.cons_append, splitWSAux,
      if_neg (by simpa using hw ch (List.mem_cons_self ch w')),
      splitWSAux_append_word w' cs (ch :: acc)
        (fun c hc => hw c (List.mem_cons_of_mem ch hc))]
    congr 1
    simp

/-- `split()` is a left inverse of `" ".join` on lists of good words. -/
theorem pySplit_joinWords : ∀ (ws : List String),
    (∀ w ∈ ws, GoodWord w) → pySplit (joinWords ws) = ws
  | [], _ => rfl
  | [w], hws => by
    obtain ⟨hne, hgood⟩ := hws w (List.mem_singleton.mpr rfl)
    rw [joinWords, pySplit]
    rw [show w.data = w.data ++ [] from (List.append_nil _).symm,
      splitWSAux_append_word w.data [] [] hgood, splitWSAux]
    rw [if_neg (by simpa using fun hcon => hne (congrArg String.mk (by simpa using hcon)))]
    simp
  | w :: w' :: ws', hws => by
    obtain ⟨hne, hgood⟩ := hws w (List.mem_cons_self _ _)
    have hrest : ∀ u ∈ w' :: ws', GoodWord u :=
      fun u hu => hws u (List.mem_cons_of_mem w hu)
    have hjoin : joinWords (w :: w' :: ws') = w ++ " " ++ joinWords (w' :: ws') := rfl
    rw [hjoin, pySplit, String.data_append, String.data_append]
    rw [show (" ".data : List Char) = [' '] from rfl]
    rw [List.append_assoc, List.singleton_append,
      splitWSAux_append_word w.data (' ' :: (joinWords (w' :: ws')).data) [] hgood,
      splitWSAux]
    rw [if_pos (by decide)]
    rw [if_neg (by simpa using fun hcon => hne (congrArg String.mk (by simpa using hcon)))]
    have ih := pySplit_joinWords (w' :: ws') hrest
    rw [pySplit] at ih
    rw [ih]
    simp [List.append_nil]

/-- Every corrected token emitted by the opcode loop is a good word: a
recognized word, a reference word, or the `"[silence]"` placeholder. -/
theorem processOps_corrected_good (rws fws : List String)
    (hr : ∀ w ∈ rws, GoodWord w) (hf : ∀ w ∈ fws, GoodWord w) :
    ∀ (ops : List Opcode), ∀ w ∈ (processOps rws fws ops).2, GoodWord w
  | [], w, hw => by simp [processOps] at hw
  | op :: rest, w, hw => by
    rw [processOps] at hw
    dsimp only at hw
    rcases List.mem_append.mp hw with h1 | h2
    · have hsil : GoodWord "[silence]" := ⟨by decide, by decide⟩
      obtain ⟨tag, i1, i2, j1, j2⟩ := op
      cases tag
      case equal =>
        dsimp only [opCorrected] at h1
        exact hr w (List.mem_of_mem_drop (List.mem_of_mem_take h1))
      case insert =>
        dsimp only [opCorrected] at h1
        simp at h1
      case replace =>
        dsimp only [opCorrected] at h1
        obtain ⟨i, _, rfl⟩ := List.mem_map.mp h1
        by_cases hj : j1 < fws.length
        · rw [if_pos hj]
          by_cases hcc : fws.getD j1 "" ≠ ""
          · rw [if_pos hcc]
            refine hf _ ?_
            rw [List.getD_eq_getElem?_getD, List.getElem?_eq_getElem hj]
            exact List.getElem_mem hj
          · rw [if_neg hcc]
            exact hsil
        · rw [if_neg hj, if_neg (by simp)]
          exact hsil
      case delete =>
        dsimp only [opCorrected] at h1
        obtain ⟨i, _, rfl⟩ := List.mem_map.mp h1
        by_cases hj : j1 < fws.length
        · rw [if_pos hj]
          by_cases hcc : fws.getD j1 "" ≠ ""
          · rw [if_pos hcc]
            refine hf _ ?_
            rw [List.getD_eq_getElem?_getD, List.getElem?_eq_getElem hj]
            exact List.getElem_mem hj
          · rw [if_neg hcc]
            exact hsil
        · rw [if_neg hj, if_neg (by simp)]
          exact hsil
    · exact processOps_corrected_good rws fws hr hf rest w h2

/-- The corrected text returned by the classifier splits back into exactly
one token per recognized word. -/
theorem detect_mistakes_corrected_count
    (phon : String → String → Option String) (rt ref lang : String) :
    (pySplit (detect_mistakes phon rt ref lang).2).length
      = (pySplit (lowerStr rt)).length := by
  have h2 : (detect_mistakes phon rt ref lang).2
      = joinWords (detectMistakesCore rt ref).2 := rfl
  have h3 : (detectMistakesCore rt ref).2
      = (processOps (pySplit (lowerStr rt)) (pySplit (lowerStr ref))
          (get_opcodes (pySplit (lowerStr rt)) (pySplit (lowerStr ref)))).2 := rfl
  rw [h2, h3]
  rw [pySplit_joinWords _
    (processOps_corrected_good _ _ (pySplit_goodWords _) (pySplit_goodWords _) _)]
  rw [processOps_corrected_length _ _
    (get_opcodes_opChain (pySplit (lowerStr rt)) (pySplit (lowerStr ref)))]
  omega

/-- The mistake list of `detect_mistakes` unfolded: the pre-escalation
list, dispatched on the language gate, the two phonemizer outcomes and the
phoneme-similarity test. -/
theorem detect_mistakes_fst (phon : String → String → Option String)
    (rt ref lang : String) :
    (detect_mistakes phon rt ref lang).1 =
      (if lang ∈ ["en", "fr", "de", "nl", "ko"] then
        match phon rt lang with
        | none => (detectMistakesCore rt ref).1
        | some recognized_phonemes =>
          match phon ref lang with
          | none => (detectMistakesCore rt ref).1
          | some reference_phonemes =>
            if ratioQ (pySplit recognized_phonemes) (pySplit reference_phonemes)
                < mkRat 85 100 then
              (detectMistakesCore rt ref).1.map escalateMistake
            else (detectMistakesCore rt ref).1
      else (detectMistakesCore rt ref).1) := rfl

/-- The mistake list of `detect_mistakes` is the pre-escalation list,
possibly retyped in place by `escalateMistake`. -/
theorem detect_mistakes_cases (phon : String → String → Option String)
    (rt ref lang : String) :
    (detect_mistakes phon rt ref lang).1 = (detectMistakesCore rt ref).1
      ∨ (detect_mistakes phon rt ref lang).1
          = (detectMistakesCore rt ref).1.map escalateMistake := by
  rw [detect_mistakes_fst]
  by_cases hl : lang ∈ ["en", "fr", "de", "nl", "ko"]
  · rw [if_pos hl]
    cases hrp : phon rt lang with
    | none => exact Or.inl rfl
    | some rp =>
      cases hfp : phon ref lang with
      | none => exact Or.inl rfl
      | some fp =>
        dsimp only
        by_cases hrat : ratioQ (pySplit rp) (pySplit fp) < mkRat 85 100
        · rw [if_pos hrat]
          exact Or.inr rfl
        · rw [if_neg hrat]
          exact Or.inl rfl
  · rw [if_neg hl]
    exact Or.inl rfl

/-- Every pre-escalation mistake of the classifier is an
`incorrect_word`. -/
theorem detectMistakesCore_types (rt ref : String) :
    ∀ m ∈ (detectMistakesCore rt ref).1, m.type = "incorrect_word" := by
  have h : (detectMistakesCore rt ref).1
      = (processOps (pySplit (lowerStr rt)) (pySplit (lowerStr ref))
          (get_opcodes (pySplit (lowerStr rt)) (pySplit (lowerStr ref)))).1 := rfl
  rw [h]
  exact processOps_mistake_types _ _ (get_opcodes_opChain _ _)

/-- `List.find?` returns the first element satisfying the predicate, or
`none` when no element does. -/
theorem find?_first {β : Type} (p : β → Bool) :
    ∀ (l : List β),
      (∃ i : Fin l.length, l.find? p = some (l.get i) ∧ p (l.get i) = true ∧
        ∀ k : Fin l.length, k.1 < i.1 → p (l.get k) = false)
      ∨ ((∀ x ∈ l, p x = false) ∧ l.find? p = none)
  | [] => Or.inr ⟨fun x hx => absurd hx (List.not_mem_nil x), rfl⟩
  | x :: xs => by
    by_cases hx : p x
    · left
      refine ⟨⟨0, by simp⟩, ?_, hx, ?_⟩
      · rw [List.find?_cons_of_pos _ hx]
        rfl
      · intro k hk
        dsimp only at hk
        exact absurd hk (by omega)
    · have hx' : p x = false := by
        simpa using hx
      rcases find?_first p xs with ⟨i, h1, h2, h3⟩ | ⟨h1, h2⟩
      · left
        refine ⟨⟨i.1 + 1, by simpa using i.2⟩, ?_, ?_, ?_⟩
        · rw [List.find?_cons_of_neg _ hx]
          simpa using h1
        · simpa using h2
        · intro k hk
          dsimp only at hk
          match k, hk with
          | ⟨0, hk0⟩, _ => exact hx'
          | ⟨k' + 1, hk'⟩, hk =>
            rw [List.length_cons] at hk'
            dsimp only at hk
            have h4 := h3 ⟨k', by omega⟩ (by dsimp only; omega)
            simpa using h4
      · right
        refine ⟨?_, ?_⟩
        · intro y hy
          rcases List.mem_cons.mp hy with rfl | hmem
          · exact hx'
          · exact h1 y hmem
        · rw [List.find?_cons_of_neg _ hx]
          exact h2

/-! ## Claim theorems -/

/-- C3: for every pair of input texts, every language code and every
phonemizer behaviour, the mistake list returned by `detect_mistakes`
contains no mistake of type `extra_word`: `insert` opcodes span an empty
range on the recognized-word side, so the `extra_word` branch emits
nothing, and pronunciation escalation only retypes `incorrect_word`
mistakes. -/
theorem c3_no_extra_word (phon : String → String → Option String)
    (rt ref lang : String) :
    ∀ m ∈ (detect_mistakes phon rt ref lang).1, m.type ≠ "extra_word" := by
  intro m hm
  rcases detect_mistakes_cases phon rt ref lang with h | h
  · rw [h] at hm
    rw [detectMistakesCore_types rt ref m hm]
    decide
  · rw [h] at hm
    obtain ⟨m0, hm0, rfl⟩ := List.mem_map.mp hm
    have ht := detectMistakesCore_types rt ref m0 hm0
    rw [escalateMistake, if_pos ht]
    show ("pronunciation" : String) ≠ "extra_word"
    decide

/-- C3 witness: the single mistake of a concrete run is not an
`extra_word`. -/
theorem c3_witness :
    (⟨"a", "b", 0, "incorrect_word"⟩ : Mistake)
        ∈ (detect_mistakes (fun _ _ => none) "a" "b" "en").1 ∧
    (⟨"a", "b", 0, "incorrect_word"⟩ : Mistake).type ≠ "extra_word" :=
  ⟨by decide, c3_no_extra_word (fun _ _ => none) "a" "b" "en" _ (by decide)⟩

/-- C7 counterexample: for `a = [1]`, `b = [2, 1]` the opcodes are an
`insert` followed by an `equal` with the same `i1 = 0`, so the opcode list
is not strictly increasing in `i1` as the claim states. -/
theorem c7_counterexample :
    (get_opcodes [1] [2, 1]).map Opcode.i1 = [0, 0] ∧
    ¬ List.Pairwise (fun x y : Opcode => x.i1 < y.i1) (get_opcodes [1] [2, 1]) :=
  ⟨by decide, by decide⟩

/-- C7 (amended): for every pair of sequences the opcodes of `get_opcodes`
form a chain — consecutive spans that start at `(0, 0)`, are adjacent with
no gaps or overlaps on either side, and end exactly at
`(len a, len b)` — and are pairwise nondecreasing (not strictly
increasing) in `i1` and in `j1`. -/
theorem c7_amended {α : Type} [DecidableEq α] (a b : List α) :
    OpChain 0 0 a.length b.length (get_opcodes a b) ∧
    List.Pairwise (fun x y => x.i1 ≤ y.i1 ∧ x.j1 ≤ y.j1) (get_opcodes a b) :=
  ⟨get_opcodes_opChain a b, opChain_pairwise (get_opcodes_opChain a b)⟩

/-- C8: `ratio(a, a) = 1` for non-empty `a`, `ratio(a, empty) = 0` for
non-empty `a`, and `ratio(empty, empty) = 1`. -/
theorem c8_ratio_units {α : Type} [DecidableEq α] (a : List α) (h : a ≠ []) :
    ratioQ a a = 1 ∧ ratioQ a [] = 0 ∧ ratioQ ([] : List α) [] = 1 :=
  ⟨ratioQ_self a h, ratioQ_nil_right a h, ratioQ_nil_nil⟩

/-- C8 witness at the concrete sequence `[1, 2, 3]`. -/
theorem c8_witness :
    ([1, 2, 3] : List Nat) ≠ [] ∧ ratioQ [1, 2, 3] [1, 2, 3] = 1 ∧
    ratioQ [1, 2, 3] ([] : List Nat) = 0 ∧ ratioQ ([] : List Nat) [] = 1 := by
  obtain ⟨h1, h2, h3⟩ := c8_ratio_units [1, 2, 3] (by decide)
  exact ⟨by decide, h1, h2, h3⟩

/-- C10: for every pair of input texts, every language code and every
phonemizer behaviour, the corrected text returned by `detect_mistakes`
contains exactly as many space-separated tokens as there are words in the
lowercased recognized text. -/
theorem c10_corrected_token_count (phon : String → String → Option String)
    (rt ref lang : String) :
    (pySplit (detect_mistakes phon rt ref lang).2).length
      = (pySplit (lowerStr rt)).length :=
  detect_mistakes_corrected_count phon rt ref lang

/-- C1 counterexample: for the Scenario A texts the reference is indeed
`"how are you"`, but the delete-gap mistake for `"hello"` is typed
`incorrect_word` (the dead `insert` branch never emits `extra_word`), so
the claimed `extra_word` flag is wrong. -/
theorem c1_counterexample :
    get_reference_text "hello how are you" "en" = "how are you" ∧
    (detect_mistakes (fun _ _ => none) "hello how are you" "how are you" "en").1
      = [⟨"hello", "how", 0, "incorrect_word"⟩] ∧
    (⟨"hello", "how", 0, "incorrect_word"⟩ : Mistake).type ≠ "extra_word" :=
  ⟨by decide, by decide, by decide⟩

/-- C1 (amended): for `"hello how are you"` with language `en`, the phrase
ratios are `2/5` and `6/7` as computed, reference selection returns
`"how are you"`, and for every phonemizer behaviour the classification
flags `"hello"` (at position 0, with correction `"how"`) as the single
mistake, typed `incorrect_word` or — after pronunciation escalation —
`pronunciation`, never `extra_word`. -/
theorem c1_amended (phon : String → String → Option String) :
    ratioQ ["hello", "how", "are", "you"] ["hello"] = (2 : ℚ) / 5 ∧
    ratioQ ["hello", "how", "are", "you"] ["how", "are", "you"] = (6 : ℚ) / 7 ∧
    get_reference_text "hello how are you" "en" = "how are you" ∧
    (detect_mistakes phon "hello how are you" "how are you" "en").1.map Mistake.word
      = ["hello"] ∧
    ∀ m ∈ (detect_mistakes phon "hello how are you" "how are you" "en").1,
      m.word = "hello" ∧ m.correct = "how" ∧ m.position = 0 ∧
        (m.type = "incorrect_word" ∨ m.type = "pronunciation") := by
  have hr1 : ratioQ ["hello", "how", "are", "you"] ["hello"] = (2 : ℚ) / 5 := by
    have h := show ratioQ ["hello", "how", "are", "you"] ["hello"] = mkRat 2 5 by decide
    rw [h, Rat.mkRat_eq_div]
    norm_num
  have hr2 : ratioQ ["hello", "how", "are", "you"] ["how", "are", "you"] = (6 : ℚ) / 7 := by
    have h := show ratioQ ["hello", "how", "are", "you"] ["how", "are", "you"] = mkRat 6 7 by
      decide
    rw [h, Rat.mkRat_eq_div]
    norm_num
  have hcore : (detectMistakesCore "hello how are you" "how are you").1
      = [⟨"hello", "how", 0, "incorrect_word"⟩] := by decide
  have hesc : List.map escalateMistake [(⟨"hello", "how", 0, "incorrect_word"⟩ : Mistake)]
      = [⟨"hello", "how", 0, "pronunciation"⟩] := by decide
  refine ⟨hr1, hr2, by decide, ?_, ?_⟩
  · rcases detect_mistakes_cases phon "hello how are you" "how are you" "en" with h | h <;>
      rw [h, hcore]
    · rfl
    · rw [hesc]
      rfl
  · intro m hm
    rcases detect_mistakes_cases phon "hello how are you" "how are you" "en" with h | h
    · rw [h, hcore] at hm
      rw [List.mem_singleton] at hm
      subst hm
      exact ⟨rfl, rfl, rfl, Or.inl rfl⟩
    · rw [h, hcore, hesc] at hm
      rw [List.mem_singleton] at hm
      subst hm
      exact ⟨rfl, rfl, rfl, Or.inr rfl⟩

/-- C1 witness: the amended theorem applied to a failing phonemizer and
the concrete mistake. -/
theorem c1_witness :
    get_reference_text "hello how are you" "en" = "how are you" ∧
    ((⟨"hello", "how", 0, "incorrect_word"⟩ : Mistake).type = "incorrect_word"
      ∨ (⟨"hello", "how", 0, "incorrect_word"⟩ : Mistake).type = "pronunciation") := by
  obtain ⟨_, _, h3, _, h5⟩ := c1_amended (fun _ _ => none)
  exact ⟨h3, (h5 ⟨"hello", "how", 0, "incorrect_word"⟩ (by decide)).2.2.2⟩

/-- C2 counterexample: the empty-transcript result of
`analyze_pronunciation` carries only the fields `error` and `debug` — it
lacks `message`, `type` and `timestamp`, so it does not have the error
shape the claim states. -/
theorem c2_counterexample :
    (analyze_pronunciation (fun _ _ => none) "" "en" 1000 16000 1).map Prod.fst
      = ["error", "debug"] ∧
    "message" ∉ (analyze_pronunciation (fun _ _ => none) "" "en" 1000 16000 1).map Prod.fst :=
  ⟨rfl, by decide⟩

/-- C2 (amended): the empty-transcript result carries exactly the fields
`error` and `debug` (in particular no mistakes, feedback or score are
computed), while the exception-path `error_info` dict carries exactly
`error, message, type, timestamp` plus `traceback` (since `DEBUG` is
true). -/
theorem c2_amended (phon : String → String → Option String) (lang : String)
    (d s c : Nat) (msg typeName timestamp tb : String) :
    (analyze_pronunciation phon "" lang d s c).map Prod.fst = ["error", "debug"] ∧
    (error_result msg typeName timestamp tb).map Prod.fst
      = ["error", "message", "type", "timestamp", "traceback"] ∧
    "mistakes" ∉ (analyze_pronunciation phon "" lang d s c).map Prod.fst ∧
    "feedback" ∉ (analyze_pronunciation phon "" lang d s c).map Prod.fst ∧
    "score" ∉ (analyze_pronunciation phon "" lang d s c).map Prod.fst := by
  have h1 : (analyze_pronunciation phon "" lang d s c).map Prod.fst
      = ["error", "debug"] := rfl
  refine ⟨h1, rfl, ?_, ?_, ?_⟩ <;> rw [h1] <;> decide

/-- C2 witness: the amended theorem at concrete arguments. -/
theorem c2_witness :
    (analyze_pronunciation (fun _ _ => none) "" "en" 1000 16000 1).map Prod.fst
      = ["error", "debug"] ∧
    (error_result "Audio validation failed" "ValueError" "2026-10-12T00:00:00" "tb").map
        Prod.fst = ["error", "message", "type", "timestamp", "traceback"] := by
  obtain ⟨h1, h2, _⟩ := c2_amended (fun _ _ => none) "en" 1000 16000 1
    "Audio validation failed" "ValueError" "2026-10-12T00:00:00" "tb"
  exact ⟨h1, h2⟩

/-- C4 counterexample: at `recognized_text = reference_text = ""` the code
returns `0` through the empty-reference guard, while the claimed
unconditional clamp formula gives `100` (both texts empty means
character-level similarity `1`), so "equals clamp(...)" does not hold for
all inputs. -/
theorem c4_counterexample :
    calculate_score "" "" [] = 0 ∧ scoreSpecFormula "" "" [] = 100 ∧
    calculate_score "" "" [] ≠ scoreSpecFormula "" "" [] := by
  have h0 : calculate_score "" "" [] = 0 := by decide
  have hs : scoreSpecFormula "" "" [] = 100 := by
    have h1 : scoreSpecFormula "" "" []
        = max 0 (min 100 (ratioQ (lowerStr "").data (lowerStr "").data * 100
            - min ((0 : Nat) : ℚ) 40)) := rfl
    rw [h1, show (lowerStr "").data = ([] : List Char) from rfl, ratioQ_nil_nil]
    norm_num [min_def, max_def]
  refine ⟨h0, hs, ?_⟩
  rw [h0, hs]
  norm_num

/-- C4 (amended): the score always lies in `[0, 100]`; it equals the
spec's clamp formula whenever the reference text is non-empty; and an
empty reference always scores `0`. -/
theorem c4_amended (rt ref : String) (ms : List Mistake) :
    0 ≤ calculate_score rt ref ms ∧ calculate_score rt ref ms ≤ 100 ∧
    (ref ≠ "" → calculate_score rt ref ms = scoreSpecFormula rt ref ms) ∧
    calculate_score rt "" [] = 0 := by
  have hempty : calculate_score rt "" [] = 0 := by
    rw [calculate_score, if_pos rfl]
  by_cases href : ref = ""
  · subst href
    rw [calculate_score, if_pos rfl]
    exact ⟨le_refl 0, by norm_num, fun hcon => absurd rfl hcon, hempty⟩
  · have heq : calculate_score rt ref ms = scoreSpecFormula rt ref ms := by
      rw [calculate_score, if_neg href]
      rfl
    have hform : scoreSpecFormula rt ref ms
        = max 0 (min 100 (ratioQ (lowerStr rt).data (lowerStr ref).data * 100
            - min ((ms.map (fun m =>
                if m.type = "pronunciation" then (3 : Nat)
                else if m.type = "incorrect_word" then 2
                else 1)).sum : ℚ) 40)) := rfl
    refine ⟨?_, ?_, fun _ => heq, hempty⟩
    · rw [heq, hform]
      exact le_max_left 0 _
    · rw [heq, hform]
      exact max_le (by norm_num) (min_le_left _ _)

/-- C4 witness: the amended theorem at concrete inputs. -/
theorem c4_witness :
    ("b" : String) ≠ "" ∧ calculate_score "a" "b" [] = scoreSpecFormula "a" "b" [] :=
  ⟨by decide, (c4_amended "a" "b" []).2.2.1 (by decide)⟩

/-- C5: if either phonemizer call fails, `detect_mistakes` returns the
pre-escalation mistakes unchanged (and in particular does not fail); if
both calls succeed for a supported language and the phoneme-sequence
ratio is below `0.85`, every mistake is retyped in place by
`escalateMistake`, which turns `incorrect_word` into `pronunciation`,
preserves `word`, `correct` and `position`, and leaves every other type
(in particular `extra_word`) untouched. -/
theorem c5_escalation (phon : String → String → Option String) (rt ref lang : String) :
    ((phon rt lang = none ∨ ∃ rp, phon rt lang = some rp ∧ phon ref lang = none) →
      (detect_mistakes phon rt ref lang).1 = (detectMistakesCore rt ref).1) ∧
    (∀ rp fp, lang ∈ ["en", "fr", "de", "nl", "ko"] →
      phon rt lang = some rp → phon ref lang = some fp →
      ratioQ (pySplit rp) (pySplit fp) < mkRat 85 100 →
      (detect_mistakes phon rt ref lang).1
        = (detectMistakesCore rt ref).1.map escalateMistake) ∧
    (∀ m : Mistake, (escalateMistake m).word = m.word ∧
      (escalateMistake m).correct = m.correct ∧
      (escalateMistake m).position = m.position ∧
      (m.type = "incorrect_word" → (escalateMistake m).type = "pronunciation") ∧
      (m.type ≠ "incorrect_word" → escalateMistake m = m)) := by
  refine ⟨?_, ?_, ?_⟩
  · intro h
    rw [detect_mistakes_fst]
    by_cases hl : lang ∈ ["en", "fr", "de", "nl", "ko"]
    · rw [if_pos hl]
      rcases h with h | ⟨rp, hrp, hfp⟩
      · rw [h]
      · rw [hrp, hfp]
    · rw [if_neg hl]
  · intro rp fp hl hrp hfp hrat
    rw [detect_mistakes_fst, if_pos hl, hrp, hfp]
    dsimp only
    rw [if_pos hrat]
  · intro m
    rw [escalateMistake]
    by_cases ht : m.type = "incorrect_word"
    · rw [if_pos ht]
      exact ⟨rfl, rfl, rfl, fun _ => rfl, fun hcon => absurd ht hcon⟩
    · rw [if_neg ht]
      exact ⟨rfl, rfl, rfl, fun hcon => absurd hcon ht, fun _ => rfl⟩

/-- C5 witness: a concrete successful phonemizer with dissimilar phoneme
strings triggers escalation. -/
theorem c5_witness :
    (detect_mistakes (fun t _ => some (if t = "x" then "aaa" else "bbb")) "x" "y" "en").1
      = (detectMistakesCore "x" "y").1.map escalateMistake :=
  (c5_escalation (fun t _ => some (if t = "x" then "aaa" else "bbb")) "x" "y" "en").2.1
    "aaa" "bbb" (by decide) (by decide) (by decide) (by decide)

/-- C6: `get_reference_text` returns the first phrase of the language's
list (the default language's list when the code has no entry) whose
word-level ratio against the lowercased tokenized transcript exceeds
`0.7`, and returns the transcript unchanged when no phrase qualifies; in
particular the empty transcript is returned unchanged. -/
theorem c6_reference_selection (text lang : String) :
    ((∃ i : Fin (phrasesFor lang).length,
        get_reference_text text lang = (phrasesFor lang).get i ∧
        ratioQ (pySplit (lowerStr text)) (pySplit ((phrasesFor lang).get i))
          > mkRat 7 10 ∧
        ∀ k : Fin (phrasesFor lang).length, k.1 < i.1 →
          ¬(ratioQ (pySplit (lowerStr text)) (pySplit ((phrasesFor lang).get k))
              > mkRat 7 10))
      ∨ ((∀ p ∈ phrasesFor lang,
            ¬(ratioQ (pySplit (lowerStr text)) (pySplit p) > mkRat 7 10)) ∧
          get_reference_text text lang = text)) ∧
    (COMMON_PHRASES.lookup lang = none → phrasesFor lang = enPhrases) ∧
    get_reference_text "" lang = "" := by
  have hdef : ∀ t : String, get_reference_text t lang =
      (match (phrasesFor lang).find? (fun phrase =>
          decide (ratioQ (pySplit (lowerStr t)) (pySplit phrase) > mkRat 7 10)) with
      | some phrase => phrase
      | none => t) := fun t => rfl
  refine ⟨?_, ?_, ?_⟩
  · rcases find?_first (fun phrase =>
        decide (ratioQ (pySplit (lowerStr text)) (pySplit phrase) > mkRat 7 10))
        (phrasesFor lang) with ⟨i, h1, h2, h3⟩ | ⟨h1, h2⟩
    · left
      refine ⟨i, ?_, ?_, ?_⟩
      · rw [hdef, h1]
      · simpa using h2
      · intro k hk
        simpa using h3 k hk
    · right
      refine ⟨fun p hp => by simpa using h1 p hp, ?_⟩
      rw [hdef, h2]
  · intro hlook
    rw [phrasesFor, hlook]
    rfl
  · by_cases h1 : lang = "fr"
    · subst h1
      decide
    by_cases h2 : lang = "de"
    · subst h2
      decide
    by_cases h3 : lang = "nl"
    · subst h3
      decide
    by_cases h4 : lang = "ko"
    · subst h4
      decide
    by_cases h5 : lang = "en"
    · subst h5
      decide
    have hlook : COMMON_PHRASES.lookup lang = none := by
      rw [COMMON_PHRASES]
      simp only [List.lookup]
      rw [show (lang == "fr") = false from beq_eq_false_iff_ne.mpr h1,
        show (lang == "de") = false from beq_eq_false_iff_ne.mpr h2,
        show (lang == "nl") = false from beq_eq_false_iff_ne.mpr h3,
        show (lang == "ko") = false from beq_eq_false_iff_ne.mpr h4,
        show (lang == "en") = false from beq_eq_false_iff_ne.mpr h5]
    have hph : phrasesFor lang = enPhrases := by
      rw [phrasesFor, hlook]
      rfl
    have hd0 := hdef ("")
    rw [hd0, hph]
    decide

/-- C6 witness: an unrecognized language code falls back to the English
phrase list, and the empty transcript is returned unchanged. -/
theorem c6_witness :
    COMMON_PHRASES.lookup "zz" = none ∧ phrasesFor "zz" = enPhrases ∧
    get_reference_text "" "zz" = "" := by
  obtain ⟨_, h2, h3⟩ := c6_reference_selection "" "zz"
  exact ⟨by decide, h2 (by decide), h3⟩

/-- C9 counterexample: for identical *empty* texts the mistake list and
feedback behave as claimed, but the score is `0` (the empty-reference
guard), not `100`. -/
theorem c9_counterexample :
    (detect_mistakes (fun _ _ => none) "" "" "en").1 = [] ∧
    generate_feedback [] "en"
      = "Excellent pronunciation! No mistakes detected." :: (tipsFor "en").take 2 ∧
    calculate_score "" "" [] = 0 ∧ calculate_score "" "" [] ≠ 100 :=
  ⟨by decide, by decide, by decide, by decide⟩

/-- C9 (amended): when recognized and reference text are identical and
non-empty, classification returns an empty mistake list for every
phonemizer behaviour, feedback on the empty list is the fixed praise line
followed by the first two tips of the language (default-language tips when
unsupported), and the score is `100`.  (For the empty text the score is
`0` by the empty-reference guard.) -/
theorem c9_amended (phon : String → String → Option String) (text lang : String)
    (h : text ≠ "") :
    (detect_mistakes phon text text lang).1 = [] ∧
    generate_feedback [] lang
      = "Excellent pronunciation! No mistakes detected." :: (tipsFor lang).take 2 ∧
    calculate_score text text [] = 100 := by
  have hcore : (detectMistakesCore text text).1 = [] := by
    have hd : (detectMistakesCore text text).1
        = (processOps (pySplit (lowerStr text)) (pySplit (lowerStr text))
            (get_opcodes (pySplit (lowerStr text)) (pySplit (lowerStr text)))).1 := rfl
    rw [hd]
    by_cases hw : pySplit (lowerStr text) = []
    · rw [hw, get_opcodes_nil]
      rfl
    · rw [get_opcodes_self _ (List.length_pos.mpr hw)]
      rfl
  refine ⟨?_, ?_, ?_⟩
  · rcases detect_mistakes_cases phon text text lang with h' | h' <;> rw [h', hcore] <;> rfl
  · rw [generate_feedback, if_pos rfl]
  · have hdata : (lowerStr text).data ≠ [] := by
      intro hcon
      apply h
      have hnil : text.data = [] := by
        have hmap : text.data.map Char.toLower = [] := hcon
        simpa using hmap
      cases text with
      | mk l =>
        have hl : l = [] := hnil
        subst hl
        rfl
    have h0 : calculate_score text text []
        = max 0 (min 100 (ratioQ (lowerStr text).data (lowerStr text).data * 100
            - min ((0 : Nat) : ℚ) 40)) := by
      rw [calculate_score, if_neg h]
      rfl
    rw [h0, ratioQ_self _ hdata]
    norm_num [min_def, max_def]

/-- C9 witness: identical non-empty texts score `100` with no
mistakes. -/
theorem c9_witness :
    ("hi" : String) ≠ "" ∧ (detect_mistakes (fun _ _ => none) "hi" "hi" "en").1 = [] ∧
    calculate_score "hi" "hi" [] = 100 := by
  obtain ⟨h1, _, h3⟩ := c9_amended (fun _ _ => none) "hi" "en" (by decide)
  exact ⟨by decide, h1, h3⟩

end Speak
